import Mathlib

/-!
Verification development for the OptiVest stock-basket pipeline.

The repository ships the methodology as documentation (`factor_model.py`,
`recalculate_basket_weights.py` and the other scripts are referenced but not
included in the provided source), so the analytical core below is modelled
from the specification: return-series statistics, per-factor ordinary
least-squares regression, risk scoring by standardized loadings, basket
partitioning and top-K weight allocation.  The landing-page modal logic is
embedded directly from `src/HomePage.jsx`.

Numeric values are represented by exact rationals; the cross-sectional
standard deviation used by the risk scorer is the real square root of the
rational population variance.
-/

namespace OptiVest

/-! ## Population statistics over return series -/

/-- Population mean of a list of rationals (0 for the empty list, matching
`sum / length` with rational division by zero). -/
def popMean (xs : List ℚ) : ℚ := xs.sum / xs.length

/-- Sum of pointwise products of two series. -/
def dot (xs ys : List ℚ) : ℚ := (List.zipWith (fun a b => a * b) xs ys).sum

/-- Population covariance of two equal-length series, in the computational
form `E[xy] - E[x]E[y]`. -/
def popCov (xs ys : List ℚ) : ℚ := dot xs ys / xs.length - popMean xs * popMean ys

/-- Population variance of a series. -/
def popVar (xs : List ℚ) : ℚ := popCov xs xs

/-! ## Data model -/

/-- A security: ticker identifier and its periodic return series. -/
structure Security where
  id : String
  returns : List ℚ
deriving DecidableEq, Repr

/-- The three factor series consumed by the regression engine. -/
structure FactorSeries where
  mkt : List ℚ
  smb : List ℚ
  hml : List ℚ
deriving DecidableEq, Repr

/-- Per-security factor loadings produced by the regression engine. -/
structure FactorLoading where
  id : String
  beta : ℚ
  smbLoading : ℚ
  hmlLoading : ℚ
  alpha : ℚ
  rSquared : ℚ
deriving DecidableEq, Repr

/-- The error kinds of the pipeline; all are terminal for the run. -/
inductive PipelineError where
  | insufficientData
  | degenerateSeries
  | zeroVariance
  | insufficientMembers
deriving DecidableEq, Repr

/-- Result of one simple ordinary-least-squares regression. -/
structure RegResult where
  slope : ℚ
  intercept : ℚ
  rsq : ℚ
deriving DecidableEq, Repr

/-! ## FactorRegressionEngine -/

/-- Modelled from the spec: `factor_model.py` is not in the provided source;
this follows the documented `stats.linregress` usage (slope, intercept,
rvalue squared) and fails with `DegenerateSeriesError` when an input series
has zero variance. -/
def linregress (x y : List ℚ) : Except PipelineError RegResult :=
  if popVar x = 0 ∨ popVar y = 0 then .error .degenerateSeries
  else
    .ok { slope := popCov x y / popVar x
        , intercept := popMean y - popCov x y / popVar x * popMean x
        , rsq := popCov x y ^ 2 / (popVar x * popVar y) }

/-- Modelled from the spec: three independent simple regressions per security,
one against each factor series; beta/alpha/rSquared come from the market
regression, the SMB and HML loadings are the slopes of the other two. -/
def regressSecurity (f : FactorSeries) (s : Security) : Except PipelineError FactorLoading :=
  match linregress f.mkt s.returns with
  | .error e => .error e
  | .ok m =>
    match linregress f.smb s.returns with
    | .error e => .error e
    | .ok sm =>
      match linregress f.hml s.returns with
      | .error e => .error e
      | .ok hm =>
          .ok { id := s.id
              , beta := m.slope
              , smbLoading := sm.slope
              , hmlLoading := hm.slope
              , alpha := m.intercept
              , rSquared := m.rsq }

/-- Modelled from the spec: the regression engine applied to every security of
the universe in order; the first failure is terminal. -/
def regressUniverse (f : FactorSeries) : List Security → Except PipelineError (List FactorLoading)
  | [] => .ok []
  | s :: rest =>
    match regressSecurity f s with
    | .error e => .error e
    | .ok l =>
      match regressUniverse f rest with
      | .error e => .error e
      | .ok ls => .ok (l :: ls)

/-! ## RiskScorer -/

/-- Standardize one value against the cross-sectional distribution of its
field: subtract the population mean and divide by the population standard
deviation (the real square root of the rational population variance). -/
noncomputable def standardize (x : ℚ) (xs : List ℚ) : ℝ :=
  ((x : ℝ) - ((popMean xs : ℚ) : ℝ)) / Real.sqrt ((popVar xs : ℚ) : ℝ)

/-- Modelled from the spec: composite risk score of one security's loadings
against the cross-section of all loadings: `standardized(beta) +
0.5 * standardized(smbLoading) + 0.5 * standardized(hmlLoading)`. -/
noncomputable def compositeScore (l : FactorLoading) (ls : List FactorLoading) : ℝ :=
  standardize l.beta (ls.map FactorLoading.beta)
    + 1 / 2 * standardize l.smbLoading (ls.map FactorLoading.smbLoading)
    + 1 / 2 * standardize l.hmlLoading (ls.map FactorLoading.hmlLoading)

/-- Modelled from the spec: the risk scorer pairs every loading with its
composite score; it fails with `ZeroVarianceError` when any loading field is
constant across the universe (standardization undefined). -/
noncomputable def riskScores (ls : List FactorLoading) :
    Except PipelineError (List (FactorLoading × ℝ)) :=
  if popVar (ls.map FactorLoading.beta) = 0 ∨ popVar (ls.map FactorLoading.smbLoading) = 0 ∨
      popVar (ls.map FactorLoading.hmlLoading) = 0 then
    .error .zeroVariance
  else
    .ok (ls.map fun l => (l, compositeScore l ls))

/-! ## BasketPartitioner -/

/-- Ascending lexicographic comparison on a sort key with identifier
tie-break, as a Boolean comparator for `List.mergeSort`. -/
def lexLE {α : Type} {β : Type} [LinearOrder β] (key : α → β) (ident : α → String)
    (a b : α) : Bool :=
  decide (key a < key b ∨ (key a = key b ∧ ident a ≤ ident b))

/-- Split a list into consecutive chunks of the given sizes. -/
def chunkBySizes {α : Type} : List ℕ → List α → List (List α)
  | [], _ => []
  | k :: ks, l => l.take k :: chunkBySizes ks (l.drop k)

/-- Sizes of the `k` baskets for a universe of `n` securities: each basket
holds `n / k`, and the remainder goes one each to the lowest-indexed
baskets. -/
def basketSizes (k n : ℕ) : List ℕ :=
  (List.range k).map fun i => n / k + if i < n % k then 1 else 0

/-- Modelled from the spec: the basket partitioner sorts the universe
ascending by the sort key (ties broken by identifier) and splits it into `k`
consecutive baskets of near-equal sizes. -/
def basketPartition {α : Type} {β : Type} [LinearOrder β] (k : ℕ) (key : α → β)
    (ident : α → String) (u : List α) : List (List α) :=
  chunkBySizes (basketSizes k u.length) (u.mergeSort (lexLE key ident))

/-- The partitioner applied to an already-scored universe of
(identifier, risk score) pairs. -/
def partitionScored (k : ℕ) (u : List (String × ℚ)) : List (List (String × ℚ)) :=
  basketPartition k Prod.snd Prod.fst u

/-- Modelled from the spec: the risk scoring and basket assignment stage:
regress the universe, score the loadings, and partition by ascending
composite score with identifier tie-break. -/
noncomputable def assignBaskets (f : FactorSeries) (u : List Security) (k : ℕ) :
    Except PipelineError (List (List (FactorLoading × ℝ))) :=
  match regressUniverse f u with
  | .error e => .error e
  | .ok ls =>
    match riskScores ls with
    | .error e => .error e
    | .ok scored => .ok (basketPartition k Prod.snd (fun x => x.1.id) scored)

/-! ## WeightAllocator -/

/-- Pipeline configuration: basket count (default 5), top-K selection size
(default 7) and the positive epsilon floor used to clip non-positive raw
weights. -/
structure Config where
  basketCount : ℕ
  topK : ℕ
  epsFloor : ℚ
deriving DecidableEq, Repr

/-- The documented default configuration. -/
def defaultConfig : Config := { basketCount := 5, topK := 7, epsFloor := 1 / 1000000 }

/-- One weighted holding of a basket. -/
structure Holding where
  id : String
  weight : ℚ
deriving DecidableEq, Repr

/-- The externally visible result for one basket: its member identifiers and
the weighted top-K holdings. -/
structure BasketResult where
  members : List String
  holdings : List Holding
deriving DecidableEq, Repr

/-- Raw weight of a selected security: proportional to the magnitude of its
alpha, with any non-positive value clipped to the positive epsilon floor. -/
def rawWeight (eps : ℚ) (l : FactorLoading) : ℚ :=
  if l.alpha ≤ 0 then eps else l.alpha

/-- Modelled from the spec: the weight allocator for one basket: fails with
`InsufficientMembersError` when the basket has fewer than `topK` members,
otherwise selects the top-K members by descending alpha (ties broken by
identifier), clips non-positive raw weights to the epsilon floor and
normalizes the selection to sum to 100. -/
def allocateBasket (cfg : Config) (mems : List FactorLoading) :
    Except PipelineError BasketResult :=
  if mems.length < cfg.topK then .error .insufficientMembers
  else
    let ranked := mems.mergeSort (lexLE (fun l => -l.alpha) FactorLoading.id)
    let top := ranked.take cfg.topK
    let raw := top.map (rawWeight cfg.epsFloor)
    let tot := raw.sum
    .ok { members := mems.map FactorLoading.id
        , holdings := top.map fun l => { id := l.id, weight := rawWeight cfg.epsFloor l / tot * 100 } }

/-- The weight allocator applied to every basket in order; the first failure
is terminal. -/
def allocateAll (cfg : Config) : List (List FactorLoading) → Except PipelineError (List BasketResult)
  | [] => .ok []
  | b :: rest =>
    match allocateBasket cfg b with
    | .error e => .error e
    | .ok r =>
      match allocateAll cfg rest with
      | .error e => .error e
      | .ok rs => .ok (r :: rs)

/-- Modelled from the spec: the full batch pipeline: regression, risk
scoring, basket partitioning and per-basket weight allocation.  It produces a
complete basket set or a single terminal error; no partial output exists. -/
noncomputable def pipeline (f : FactorSeries) (u : List Security) (cfg : Config) :
    Except PipelineError (List BasketResult) :=
  match assignBaskets f u cfg.basketCount with
  | .error e => .error e
  | .ok baskets => allocateAll cfg (baskets.map (List.map Prod.fst))

/-! ## Landing-page modal (from `src/HomePage.jsx`) -/

/-- A feature card of the landing page (icon omitted). -/
structure Feature where
  title : String
  description : String
  details : String
deriving DecidableEq, Repr

/-- The static four-element features list of `HomePage`. -/
def features : List Feature :=
  [ { title := "Limited Disclosure with Trust Signals"
    , description := "Maintain privacy while building trust with counterparties through selective disclosure."
    , details := "Our platform allows you to share only the necessary information about your portfolio while still providing sufficient trust signals to counterparties. This selective disclosure mechanism protects your proprietary strategies while enabling efficient transactions." }
  , { title := "Multi-Asset Class Flexibility"
    , description := "Seamlessly integrate stocks, ETFs, crypto, commodities, and more in one unified platform."
    , details := "OptiVest's advanced multi-asset framework allows you to build truly diversified portfolios across traditional and alternative asset classes. Our platform handles the complexities of different market structures, trading hours, and data formats to provide a unified view of your investments." }
  , { title := "Dynamic Risk Controls"
    , description := "Implement sophisticated risk management with real-time monitoring and automated safeguards."
    , details := "Our platform continuously monitors your portfolio for risk exposures across multiple dimensions including volatility, correlation shifts, liquidity constraints, and tail events. Automated circuit breakers can be configured to protect your investments during market turbulence." }
  , { title := "Advanced Portfolio Analytics"
    , description := "Gain deeper insights with institutional-grade analytics that reveal hidden risks and opportunities."
    , details := "Access sophisticated analytics typically available only to institutional investors. Our platform provides factor analysis, stress testing, scenario modeling, and performance attribution to help you understand the true drivers of your portfolio's performance and risk." } ]

/-- The modal-relevant component state of `HomePage`: `selectedFeature` and
`showModal` (initially `null` and `false`). -/
structure UIState where
  selectedFeature : Option Feature
  showModal : Bool
deriving DecidableEq, Repr

/-- The initial `useState` values of `HomePage`. -/
def initialUIState : UIState := { selectedFeature := none, showModal := false }

/-- The click events relevant to the modal: a Learn More button, the modal
backdrop, the inner modal content (whose handler stops propagation), and the
Close button. -/
inductive UIEvent where
  | learnMore (f : Feature)
  | backdropClick
  | modalContentClick
  | closeClick

/-- State transition of `HomePage` for each click event: `handleLearnMore`
sets the selected feature and opens the modal; a backdrop click closes it; a
click on the modal content stops propagation, so no state changes; the Close
button closes the modal. -/
def uiStep (s : UIState) : UIEvent → UIState
  | .learnMore f => { selectedFeature := some f, showModal := true }
  | .backdropClick => { s with showModal := false }
  | .modalContentClick => s
  | .closeClick => { s with showModal := false }

/-- What the modal displays: when `showModal` is true and a feature is
selected, its title, description and details; otherwise nothing. -/
def renderedModal (s : UIState) : Option (String × String × String) :=
  if s.showModal then s.selectedFeature.map (fun f => (f.title, f.description, f.details))
  else none

/-! ## Generic facts about the sort comparator and the chunking -/

theorem lexLE_trans {α β : Type} [LinearOrder β] (key : α → β) (ident : α → String) :
    ∀ a b c, lexLE key ident a b = true → lexLE key ident b c = true →
      lexLE key ident a c = true := by
  intro a b c hab hbc
  simp only [lexLE, decide_eq_true_eq] at hab hbc ⊢
  rcases hab with h1 | h1
  · rcases hbc with h2 | h2
    · exact Or.inl (lt_trans h1 h2)
    · exact Or.inl (h2.1 ▸ h1)
  · rcases hbc with h2 | h2
    · exact Or.inl (h1.1 ▸ h2)
    · exact Or.inr ⟨h1.1.trans h2.1, le_trans h1.2 h2.2⟩

theorem lexLE_total {α β : Type} [LinearOrder β] (key : α → β) (ident : α → String) :
    ∀ a b, (lexLE key ident a b || lexLE key ident b a) = true := by
  intro a b
  simp only [lexLE, Bool.or_eq_true, decide_eq_true_eq]
  rcases lt_trichotomy (key a) (key b) with h | h | h
  · exact Or.inl (Or.inl h)
  · rcases le_total (ident a) (ident b) with h2 | h2
    · exact Or.inl (Or.inr ⟨h, h2⟩)
    · exact Or.inr (Or.inr ⟨h.symm, h2⟩)
  · exact Or.inr (Or.inl h)

theorem lexLE_key_le {α β : Type} [LinearOrder β] (key : α → β) (ident : α → String)
    {a b : α} (h : lexLE key ident a b = true) : key a ≤ key b := by
  simp only [lexLE, decide_eq_true_eq] at h
  rcases h with h | h
  · exact le_of_lt h
  · exact le_of_eq h.1

theorem length_chunkBySizes {α : Type} :
    ∀ (ks : List ℕ) (l : List α), (chunkBySizes ks l).length = ks.length := by
  intro ks
  induction ks with
  | nil => intro l; rfl
  | cons k ks ih => intro l; simp [chunkBySizes, ih]

theorem flatten_chunkBySizes {α : Type} :
    ∀ (ks : List ℕ) (l : List α), (chunkBySizes ks l).flatten = l.take ks.sum := by
  intro ks
  induction ks with
  | nil => intro l; simp [chunkBySizes]
  | cons k ks ih =>
      intro l
      simp only [chunkBySizes, List.flatten_cons, ih, List.sum_cons, List.take_add]

theorem getD_chunkBySizes_length {α : Type} :
    ∀ (ks : List ℕ) (l : List α) (i : ℕ), ks.sum ≤ l.length → i < ks.length →
      ((chunkBySizes ks l).getD i []).length = ks.getD i 0 := by
  intro ks
  induction ks with
  | nil => intro l i _ hi; exact absurd hi (by simp)
  | cons k ks ih =>
      intro l i hsum hi
      cases i with
      | zero =>
          simp only [chunkBySizes, List.getD_cons_zero, List.length_take]
          simp only [List.sum_cons] at hsum
          omega
      | succ i =>
          simp only [chunkBySizes, List.getD_cons_succ]
          apply ih
          · simp only [List.sum_cons] at hsum
            simp only [List.length_drop]
            omega
          · simpa using hi

theorem mem_getD_chunkBySizes {α : Type} :
    ∀ (ks : List ℕ) (l : List α) (i : ℕ) (x : α),
      x ∈ (chunkBySizes ks l).getD i [] → x ∈ l := by
  intro ks
  induction ks with
  | nil => intro l i x hx; simp [chunkBySizes, List.getD] at hx
  | cons k ks ih =>
      intro l i x hx
      cases i with
      | zero =>
          simp only [chunkBySizes, List.getD_cons_zero] at hx
          exact List.take_subset k l hx
      | succ i =>
          simp only [chunkBySizes, List.getD_cons_succ] at hx
          exact List.drop_subset k l (ih (l.drop k) i x hx)

theorem pairwise_chunkBySizes {α : Type} {R : α → α → Prop} :
    ∀ (ks : List ℕ) (l : List α), List.Pairwise R l →
      ∀ i j, i < j → ∀ x ∈ (chunkBySizes ks l).getD i [],
        ∀ y ∈ (chunkBySizes ks l).getD j [], R x y := by
  intro ks
  induction ks with
  | nil => intro l _ i j _ x hx; simp [chunkBySizes, List.getD] at hx
  | cons k ks ih =>
      intro l hp i j hij x hx y hy
      have hsplit : List.Pairwise R (l.take k ++ l.drop k) := by
        rw [List.take_append_drop]; exact hp
      rw [List.pairwise_append] at hsplit
      cases i with
      | zero =>
          cases j with
          | zero => exact absurd hij (lt_irrefl 0)
          | succ j =>
              simp only [chunkBySizes, List.getD_cons_zero, List.getD_cons_succ] at hx hy
              exact hsplit.2.2 x hx y (mem_getD_chunkBySizes ks (l.drop k) j y hy)
      | succ i =>
          cases j with
          | zero => exact absurd hij (by omega)
          | succ j =>
              simp only [chunkBySizes, List.getD_cons_succ] at hx hy
              exact ih (l.drop k) hsplit.2.1 i j (by omega) x hx y hy

theorem sum_basketSizes (k n : ℕ) (hk : 0 < k) : (basketSizes k n).sum = n := by
  have hsplit : ∀ q m kk : ℕ,
      ((List.range kk).map (fun i => q + if i < m then 1 else 0)).sum
        = kk * q + min m kk := by
    intro q m kk
    induction kk with
    | zero => simp
    | succ kk ih =>
        rw [List.range_succ, List.map_append, List.sum_append, ih]
        simp only [List.map_cons, List.map_nil, List.sum_cons, List.sum_nil]
        rw [add_one_mul]
        rcases Nat.lt_or_ge kk m with h | h
        · rw [if_pos h]
          omega
        · rw [if_neg (by omega : ¬ kk < m)]
          omega
  have hmod : n % k < k := Nat.mod_lt n hk
  unfold basketSizes
  rw [hsplit (n / k) (n % k) k]
  have hdm := Nat.div_add_mod n k
  omega

theorem getD_basketSizes (k n i : ℕ) (hi : i < k) :
    (basketSizes k n).getD i 0 = n / k + if i < n % k then 1 else 0 := by
  unfold basketSizes
  rw [List.getD_eq_getElem?_getD, List.getElem?_map, List.getElem?_range hi]
  rfl

theorem countP_flatten_nodup {α : Type} (s : α) (p : List α → Bool)
    (hp : ∀ b, p b = true ↔ s ∈ b) :
    ∀ P : List (List α), P.flatten.Nodup → s ∈ P.flatten → P.countP p = 1 := by
  intro P
  induction P with
  | nil => intro _ hs; simp at hs
  | cons b rest ih =>
      intro hnd hs
      rw [List.flatten_cons] at hnd hs
      rw [List.nodup_append] at hnd
      rw [List.countP_cons]
      by_cases hb : s ∈ b
      · have hzero : rest.countP p = 0 := by
          rw [List.countP_eq_zero]
          intro c hc hpc
          exact hnd.2.2 hb (List.mem_flatten.mpr ⟨c, hc, (hp c).mp hpc⟩)
        rw [hzero, if_pos ((hp b).mpr hb)]
      · have hrest : s ∈ rest.flatten := by
          rcases List.mem_append.mp hs with h | h
          · exact absurd h hb
          · exact h
        rw [ih hnd.2.1 hrest, if_neg (by rw [hp b]; exact hb)]

/-- C1: for every universe of identifier-scored securities and every positive
basket count, the partitioner output is an exact partition: the baskets
flatten to a permutation of the universe, there are exactly `k` baskets,
basket `i` has size `n / k` plus one for the first `n % k` baskets (so any
two basket sizes differ by at most one, remainder to the lowest-indexed
baskets), for a duplicate-free universe every security lies in exactly one
basket, and risk-score ranges are ordered: every score in basket `i` is at
most every score in basket `j` for `i < j`. -/
theorem basketPartition_exact_partition (k : ℕ) (u : List (String × ℚ)) (hk : 0 < k) :
    (partitionScored k u).flatten.Perm u
    ∧ (partitionScored k u).length = k
    ∧ (∀ i, i < k → ((partitionScored k u).getD i []).length
        = u.length / k + if i < u.length % k then 1 else 0)
    ∧ (∀ i j, i < k → j < k → ((partitionScored k u).getD i []).length
        ≤ ((partitionScored k u).getD j []).length + 1)
    ∧ (u.Nodup → ∀ s ∈ u, (partitionScored k u).countP (fun b => decide (s ∈ b)) = 1)
    ∧ (∀ i j, i < j → ∀ x ∈ (partitionScored k u).getD i [],
        ∀ y ∈ (partitionScored k u).getD j [], x.2 ≤ y.2) := by
  have hperm : (u.mergeSort (lexLE Prod.snd Prod.fst)).Perm u :=
    List.mergeSort_perm u (lexLE Prod.snd Prod.fst)
  have hlen : (u.mergeSort (lexLE Prod.snd Prod.fst)).length = u.length :=
    List.length_mergeSort u
  have hsum : (basketSizes k u.length).sum = u.length := sum_basketSizes k u.length hk
  have hflat : (partitionScored k u).flatten = u.mergeSort (lexLE Prod.snd Prod.fst) := by
    unfold partitionScored basketPartition
    rw [flatten_chunkBySizes, hsum, ← hlen, List.take_length]
  have hflatperm : (partitionScored k u).flatten.Perm u := by rw [hflat]; exact hperm
  refine ⟨hflatperm, ?_, ?_, ?_, ?_, ?_⟩
  · unfold partitionScored basketPartition
    rw [length_chunkBySizes]
    simp [basketSizes]
  · intro i hi
    unfold partitionScored basketPartition
    rw [getD_chunkBySizes_length _ _ _ (by rw [hsum, hlen]) (by simpa [basketSizes] using hi)]
    exact getD_basketSizes k u.length i hi
  · intro i j hi hj
    unfold partitionScored basketPartition
    rw [getD_chunkBySizes_length _ _ _ (by rw [hsum, hlen]) (by simpa [basketSizes] using hi),
      getD_chunkBySizes_length _ _ _ (by rw [hsum, hlen]) (by simpa [basketSizes] using hj),
      getD_basketSizes k u.length i hi, getD_basketSizes k u.length j hj]
    split_ifs <;> omega
  · intro hnd s hs
    exact countP_flatten_nodup s (fun b => decide (s ∈ b)) (fun b => by simp)
      (partitionScored k u) (hflatperm.nodup_iff.mpr hnd) (hflatperm.mem_iff.mpr hs)
  · intro i j hij x hx y hy
    have hpw : List.Pairwise (fun a b => lexLE Prod.snd Prod.fst a b = true)
        (u.mergeSort (lexLE Prod.snd Prod.fst)) :=
      List.sorted_mergeSort (lexLE_trans Prod.snd Prod.fst) (lexLE_total Prod.snd Prod.fst) u
    have := pairwise_chunkBySizes (basketSizes k u.length)
      (u.mergeSort (lexLE Prod.snd Prod.fst)) hpw i j hij x hx y hy
    exact lexLE_key_le Prod.snd Prod.fst this

/-- C1 witness: a concrete seven-security universe split into five baskets
satisfies all the partition invariants. -/
theorem basketPartition_exact_partition_witness :
    (0 : ℕ) < 5
    ∧ ((partitionScored 5 [("A", 3), ("B", 1), ("C", 2), ("D", 1), ("E", 5), ("F", 4), ("G", 2)]).flatten.Perm
        [("A", 3), ("B", 1), ("C", 2), ("D", 1), ("E", 5), ("F", 4), ("G", 2)]) := by
  refine ⟨by decide, ?_⟩
  exact (basketPartition_exact_partition 5
    [("A", 3), ("B", 1), ("C", 2), ("D", 1), ("E", 5), ("F", 4), ("G", 2)] (by decide)).1

/-! ## WeightAllocator theorems -/

theorem rawWeight_pos {eps : ℚ} (heps : 0 < eps) (l : FactorLoading) : 0 < rawWeight eps l := by
  unfold rawWeight
  split_ifs with h
  · exact heps
  · exact lt_of_not_le h

theorem sum_map_div_mul {α : Type} (l : List α) (f : α → ℚ) (t c : ℚ) :
    (l.map (fun x => f x / t * c)).sum = (l.map f).sum / t * c := by
  induction l with
  | nil => simp
  | cons x xs ih => simp [ih, add_div, add_mul]

/-- C2: for every basket successfully processed by the weight allocator (with
a positive top-K and positive epsilon floor), the output weights sum to
exactly 100 (hence within the 1e-6 tolerance) and every output weight is
strictly positive, non-positive raw weights having been clipped to the
epsilon floor. -/
theorem allocator_weights (cfg : Config) (mems : List FactorLoading)
    (hK : 0 < cfg.topK) (heps : 0 < cfg.epsFloor) (res : BasketResult)
    (h : allocateBasket cfg mems = .ok res) :
    (res.holdings.map Holding.weight).sum = 100
    ∧ |(res.holdings.map Holding.weight).sum - 100| ≤ 1 / 1000000
    ∧ ∀ hd ∈ res.holdings, 0 < hd.weight := by
  by_cases hlen : mems.length < cfg.topK
  · simp [allocateBasket, if_pos hlen] at h
  · simp only [allocateBasket, if_neg hlen] at h
    set ranked := mems.mergeSort (lexLE (fun l => -l.alpha) FactorLoading.id) with hranked
    set top := ranked.take cfg.topK with htop
    set tot := (top.map (rawWeight cfg.epsFloor)).sum with htot
    have hres := (Except.ok.inj h).symm
    have htoplen : top.length = cfg.topK := by
      rw [htop, List.length_take, hranked, List.length_mergeSort]
      omega
    have htopne : top ≠ [] := by
      intro hnil
      rw [hnil] at htoplen
      simp at htoplen
      omega
    have htotpos : 0 < tot := by
      apply List.sum_pos
      · intro x hx
        obtain ⟨l, _, rfl⟩ := List.mem_map.mp hx
        exact rawWeight_pos heps l
      · simpa using htopne
    have hweights : res.holdings.map Holding.weight
        = top.map (fun l => rawWeight cfg.epsFloor l / tot * 100) := by
      rw [hres]
      simp [List.map_map]
    have hsum : (res.holdings.map Holding.weight).sum = 100 := by
      rw [hweights, sum_map_div_mul, ← htot, div_self (ne_of_gt htotpos), one_mul]
    refine ⟨hsum, by rw [hsum]; norm_num, ?_⟩
    intro hd hhd
    rw [hres] at hhd
    simp only [List.mem_map] at hhd
    obtain ⟨l, _, rfl⟩ := hhd
    exact mul_pos (div_pos (rawWeight_pos heps l) htotpos) (by norm_num)

/-- C2 witness: at the default epsilon and top-K 1, a one-member basket gets
the single weight 100. -/
theorem allocator_weights_witness :
    (0 : ℕ) < 1 ∧ (0 : ℚ) < 1 / 1000000
    ∧ allocateBasket { basketCount := 5, topK := 1, epsFloor := 1 / 1000000 }
        [{ id := "X", beta := 1, smbLoading := 0, hmlLoading := 0, alpha := 2, rSquared := 1 }]
        = .ok { members := ["X"], holdings := [{ id := "X", weight := 100 }] }
    ∧ (([{ id := "X", weight := (100 : ℚ) }].map Holding.weight).sum = 100
        ∧ |(([{ id := "X", weight := (100 : ℚ) }] : List Holding).map Holding.weight).sum - 100| ≤ 1 / 1000000
        ∧ ∀ hd ∈ ([{ id := "X", weight := (100 : ℚ) }] : List Holding), 0 < hd.weight) := by
  have h : allocateBasket { basketCount := 5, topK := 1, epsFloor := 1 / 1000000 }
      [{ id := "X", beta := 1, smbLoading := 0, hmlLoading := 0, alpha := 2, rSquared := 1 }]
      = .ok { members := ["X"], holdings := [{ id := "X", weight := 100 }] } := by
    norm_num [allocateBasket, List.mergeSort_singleton, rawWeight]
  refine ⟨by norm_num, by norm_num, h, ?_⟩
  have := allocator_weights { basketCount := 5, topK := 1, epsFloor := 1 / 1000000 }
    [{ id := "X", beta := 1, smbLoading := 0, hmlLoading := 0, alpha := 2, rSquared := 1 }]
    (by norm_num) (by norm_num)
    { members := ["X"], holdings := [{ id := "X", weight := 100 }] } h
  simp only at this
  exact this

/-- C8: the weight allocator fails with `InsufficientMembersError` exactly
when the basket has fewer members than top-K, and on success it selects
exactly a top-K subset: the selection has size top-K, the selection and the
rest together are a permutation of the basket, every unselected member's
alpha is at most every selected member's alpha, and the output holdings are
the selection in ranked order. -/
theorem allocator_topK_selection (cfg : Config) (mems : List FactorLoading) :
    ((allocateBasket cfg mems = .error .insufficientMembers) ↔ mems.length < cfg.topK)
    ∧ (∀ res, allocateBasket cfg mems = .ok res →
        ∃ sel unsel : List FactorLoading,
          (sel ++ unsel).Perm mems
          ∧ sel.length = cfg.topK
          ∧ (∀ x ∈ sel, ∀ y ∈ unsel, y.alpha ≤ x.alpha)
          ∧ res.holdings.map Holding.id = sel.map FactorLoading.id) := by
  constructor
  · constructor
    · intro h
      by_contra hlen
      simp [allocateBasket, if_neg hlen] at h
    · intro hlen
      simp [allocateBasket, if_pos hlen]
  · intro res h
    by_cases hlen : mems.length < cfg.topK
    · simp [allocateBasket, if_pos hlen] at h
    · simp only [allocateBasket, if_neg hlen] at h
      set ranked := mems.mergeSort (lexLE (fun l => -l.alpha) FactorLoading.id) with hranked
      have hres := (Except.ok.inj h).symm
      refine ⟨ranked.take cfg.topK, ranked.drop cfg.topK, ?_, ?_, ?_, ?_⟩
      · rw [List.take_append_drop]
        exact List.mergeSort_perm mems _
      · rw [List.length_take, hranked, List.length_mergeSort]
        omega
      · intro x hx y hy
        have hpw : List.Pairwise
            (fun a b => lexLE (fun l => -l.alpha) FactorLoading.id a b = true) ranked :=
          List.sorted_mergeSort (lexLE_trans _ _) (lexLE_total _ _) mems
        have hsplit : List.Pairwise
            (fun a b => lexLE (fun l => -l.alpha) FactorLoading.id a b = true)
            (ranked.take cfg.topK ++ ranked.drop cfg.topK) := by
          rw [List.take_append_drop]; exact hpw
        rw [List.pairwise_append] at hsplit
        have := lexLE_key_le (fun l => -l.alpha) FactorLoading.id (hsplit.2.2 x hx y hy)
        simpa using this
      · rw [hres]
        simp [List.map_map]
        rfl

/-- C8 witness: with top-K 1, a one-member basket allocates successfully and
the exhibited selection facts hold at that input. -/
theorem allocator_topK_selection_witness :
    allocateBasket { basketCount := 5, topK := 1, epsFloor := 1 / 1000000 }
      [{ id := "X", beta := 1, smbLoading := 0, hmlLoading := 0, alpha := 2, rSquared := 1 }]
      = .ok { members := ["X"], holdings := [{ id := "X", weight := 100 }] }
    ∧ (∃ sel unsel : List FactorLoading,
        (sel ++ unsel).Perm
          [{ id := "X", beta := 1, smbLoading := 0, hmlLoading := 0, alpha := 2, rSquared := 1 }]
        ∧ sel.length = 1
        ∧ (∀ x ∈ sel, ∀ y ∈ unsel, y.alpha ≤ x.alpha)
        ∧ ([{ id := "X", weight := (100 : ℚ) }] : List Holding).map Holding.id
            = sel.map FactorLoading.id) := by
  have h : allocateBasket { basketCount := 5, topK := 1, epsFloor := 1 / 1000000 }
      [{ id := "X", beta := 1, smbLoading := 0, hmlLoading := 0, alpha := 2, rSquared := 1 }]
      = .ok { members := ["X"], holdings := [{ id := "X", weight := 100 }] } := by
    norm_num [allocateBasket, List.mergeSort_singleton, rawWeight]
  exact ⟨h, (allocator_topK_selection _ _).2 _ h⟩

/-! ## FactorRegressionEngine theorems -/

theorem linregress_ok {x y : List ℚ} {r : RegResult} (h : linregress x y = .ok r) :
    popVar x ≠ 0 ∧ popVar y ≠ 0
    ∧ r.slope = popCov x y / popVar x
    ∧ r.intercept = popMean y - popCov x y / popVar x * popMean x
    ∧ r.rsq = popCov x y ^ 2 / (popVar x * popVar y) := by
  unfold linregress at h
  by_cases hv : popVar x = 0 ∨ popVar y = 0
  · rw [if_pos hv] at h
    exact absurd h (by simp)
  · rw [if_neg hv] at h
    push_neg at hv
    have := Except.ok.inj h
    exact ⟨hv.1, hv.2, by rw [← this], by rw [← this], by rw [← this]⟩

theorem linregress_error_only {x y : List ℚ} {e : PipelineError}
    (h : linregress x y = .error e) : e = .degenerateSeries := by
  unfold linregress at h
  by_cases hv : popVar x = 0 ∨ popVar y = 0
  · rw [if_pos hv] at h
    exact (Except.error.inj h).symm
  · rw [if_neg hv] at h
    exact absurd h (by simp)

theorem linregress_error_iff (x y : List ℚ) :
    linregress x y = .error .degenerateSeries ↔ (popVar x = 0 ∨ popVar y = 0) := by
  unfold linregress
  by_cases hv : popVar x = 0 ∨ popVar y = 0
  · rw [if_pos hv]
    simp [hv]
  · rw [if_neg hv]
    simp [hv]

/-- C4: on success, the regression engine's output fields for one security
are exactly the three independent simple regressions: beta, alpha and
rSquared are slope, intercept and fit quality of the market regression, and
the SMB and HML loadings are the slopes of the size and value regressions. -/
theorem regression_three_independent (f : FactorSeries) (s : Security) (l : FactorLoading)
    (h : regressSecurity f s = .ok l) :
    l.id = s.id
    ∧ l.beta = popCov f.mkt s.returns / popVar f.mkt
    ∧ l.alpha = popMean s.returns - popCov f.mkt s.returns / popVar f.mkt * popMean f.mkt
    ∧ l.rSquared = popCov f.mkt s.returns ^ 2 / (popVar f.mkt * popVar s.returns)
    ∧ l.smbLoading = popCov f.smb s.returns / popVar f.smb
    ∧ l.hmlLoading = popCov f.hml s.returns / popVar f.hml := by
  unfold regressSecurity at h
  cases hm : linregress f.mkt s.returns with
  | error e => rw [hm] at h; exact absurd h (by simp)
  | ok m =>
    cases hsm : linregress f.smb s.returns with
    | error e => rw [hm, hsm] at h; exact absurd h (by simp)
    | ok sm =>
      cases hhm : linregress f.hml s.returns with
      | error e => rw [hm, hsm, hhm] at h; exact absurd h (by simp)
      | ok hm2 =>
          rw [hm, hsm, hhm] at h
          have hl := (Except.ok.inj h).symm
          obtain ⟨_, _, hms, hmi, hmr⟩ := linregress_ok hm
          obtain ⟨_, _, hss, _, _⟩ := linregress_ok hsm
          obtain ⟨_, _, hhs, _, _⟩ := linregress_ok hhm
          rw [hl]
          exact ⟨rfl, hms, hmi, hmr, hss, hhs⟩

/-- C4 witness: a concrete regression succeeds and its fields match the
ordinary-least-squares statistics. -/
theorem regression_three_independent_witness :
    ∃ l : FactorLoading,
      regressSecurity { mkt := [1, -1], smb := [1, 0], hml := [0, 2] }
        { id := "A", returns := [2, 0] } = .ok l
      ∧ l.beta = popCov [1, -1] [2, 0] / popVar [1, -1]
      ∧ l.smbLoading = popCov [1, 0] [2, 0] / popVar [1, 0] := by
  have h : regressSecurity { mkt := [1, -1], smb := [1, 0], hml := [0, 2] }
      { id := "A", returns := [2, 0] }
      = .ok { id := "A", beta := 1, smbLoading := 2, hmlLoading := -1
            , alpha := 1, rSquared := 1 } := by
    norm_num [regressSecurity, linregress, popVar, popCov, popMean, dot]
  refine ⟨_, h, ?_, ?_⟩
  · exact (regression_three_independent _ _ _ h).2.1
  · exact (regression_three_independent _ _ _ h).2.2.2.2.1

/-! ## Regression round trip (C5) -/

theorem zipWith_mul_map_self (f : ℚ → ℚ) :
    ∀ xs : List ℚ, List.zipWith (fun a b => a * b) xs (xs.map f) = xs.map (fun t => t * f t) := by
  intro xs
  induction xs with
  | nil => rfl
  | cons t ts ih => simp [ih]

theorem zipWith_mul_self :
    ∀ l : List ℚ, List.zipWith (fun a b => a * b) l l = l.map (fun t => t * t) := by
  intro l
  induction l with
  | nil => rfl
  | cons t ts ih => simp [ih]

theorem sum_map_affine (a b : ℚ) :
    ∀ xs : List ℚ, (xs.map (fun t => a + b * t)).sum = xs.length * a + b * xs.sum := by
  intro xs
  induction xs with
  | nil => simp
  | cons t ts ih =>
      simp only [List.map_cons, List.sum_cons, ih, List.length_cons]
      push_cast
      ring

theorem sum_map_self_mul_affine (a b : ℚ) :
    ∀ xs : List ℚ, (xs.map (fun t => t * (a + b * t))).sum
      = a * xs.sum + b * (xs.map (fun t => t * t)).sum := by
  intro xs
  induction xs with
  | nil => simp
  | cons t ts ih =>
      simp only [List.map_cons, List.sum_cons, ih]
      ring

theorem sum_map_affine_sq (a b : ℚ) :
    ∀ xs : List ℚ, (xs.map (fun t => (a + b * t) * (a + b * t))).sum
      = xs.length * (a * a) + 2 * a * b * xs.sum + b * b * (xs.map (fun t => t * t)).sum := by
  intro xs
  induction xs with
  | nil => simp
  | cons t ts ih =>
      simp only [List.map_cons, List.sum_cons, ih, List.length_cons]
      push_cast
      ring

theorem length_cast_eq_zero_iff_nil {xs : List ℚ} : (xs.length : ℚ) = 0 ↔ xs = [] := by
  constructor
  · intro hn
    have hlen0 : xs.length = 0 := by exact_mod_cast hn
    exact List.length_eq_zero.mp hlen0
  · intro h
    rw [h]
    simp

theorem popVar_ne_zero_nonempty {xs : List ℚ} (h : popVar xs ≠ 0) : (xs.length : ℚ) ≠ 0 := by
  intro hn
  apply h
  rw [length_cast_eq_zero_iff_nil.mp hn]
  simp [popVar, popCov, popMean, dot]

theorem popMean_affine (a b : ℚ) (xs : List ℚ) (hne : (xs.length : ℚ) ≠ 0) :
    popMean (xs.map (fun t => a + b * t)) = a + b * popMean xs := by
  unfold popMean
  rw [sum_map_affine, List.length_map]
  field_simp
  ring

theorem popCov_affine (a b : ℚ) (xs : List ℚ) :
    popCov xs (xs.map (fun t => a + b * t)) = b * popVar xs := by
  by_cases hne : (xs.length : ℚ) = 0
  · rw [length_cast_eq_zero_iff_nil.mp hne]
    simp [popCov, popVar, popMean, dot]
  · unfold popCov popVar popCov popMean dot
    rw [zipWith_mul_map_self, zipWith_mul_self, sum_map_self_mul_affine, sum_map_affine,
      List.length_map]
    field_simp
    ring

theorem popVar_affine (a b : ℚ) (xs : List ℚ) :
    popVar (xs.map (fun t => a + b * t)) = b ^ 2 * popVar xs := by
  by_cases hne : (xs.length : ℚ) = 0
  · rw [length_cast_eq_zero_iff_nil.mp hne]
    simp [popVar, popCov, popMean, dot]
  · unfold popVar popCov popMean dot
    rw [zipWith_mul_self (xs.map fun t => a + b * t), List.map_map]
    have hcomp : ((fun t => t * t) ∘ fun t => a + b * t) = fun t => (a + b * t) * (a + b * t) := by
      funext t
      simp
    rw [hcomp, sum_map_affine_sq, sum_map_affine, List.length_map]
    field_simp
    ring

/-- C5 (amended): for a market series of nonzero variance and a return
series that is an exact linear function `a + b * market` with nonzero slope
`b`, the regression recovers the slope `b`, the intercept `a`, and a fit
quality of exactly 1. -/
theorem regression_round_trip (m : List ℚ) (a b : ℚ)
    (hvar : popVar m ≠ 0) (hb : b ≠ 0) :
    linregress m (m.map (fun t => a + b * t)) = .ok { slope := b, intercept := a, rsq := 1 } := by
  have hlen := popVar_ne_zero_nonempty hvar
  have hcov := popCov_affine a b m
  have hvary := popVar_affine a b m
  have hvary_ne : popVar (m.map (fun t => a + b * t)) ≠ 0 := by
    rw [hvary]
    exact mul_ne_zero (pow_ne_zero 2 hb) hvar
  unfold linregress
  rw [if_neg (by push_neg; exact ⟨hvar, hvary_ne⟩)]
  have hslope : popCov m (m.map fun t => a + b * t) / popVar m = b := by
    rw [hcov, mul_div_assoc, div_self hvar, mul_one]
  have hint : popMean (m.map fun t => a + b * t)
      - popCov m (m.map fun t => a + b * t) / popVar m * popMean m = a := by
    rw [hslope, popMean_affine a b m hlen]
    ring
  have hrsq : popCov m (m.map fun t => a + b * t) ^ 2
      / (popVar m * popVar (m.map fun t => a + b * t)) = 1 := by
    rw [hcov, hvary]
    rw [div_eq_one_iff_eq (by exact mul_ne_zero hvar (mul_ne_zero (pow_ne_zero 2 hb) hvar))]
    ring
  simp only [Except.ok.injEq, RegResult.mk.injEq]
  exact ⟨hslope, hint, hrsq⟩

/-- C5 counterexample: the claim as stated quantifies over every slope `b`,
but at `b = 0` the constructed return series is constant, so the engine
raises `DegenerateSeriesError` (as claim C7 itself requires) instead of
recovering `beta = 0` and `rSquared = 1`. -/
theorem regression_round_trip_zero_slope :
    popVar [(1 : ℚ), -1] ≠ 0
    ∧ linregress [(1 : ℚ), -1] ([(1 : ℚ), -1].map (fun t => 0 + 0 * t))
        = .error .degenerateSeries := by
  constructor
  · norm_num [popVar, popCov, popMean, dot]
  · norm_num [linregress, popVar, popCov, popMean, dot]

/-- C5 witness: a concrete exact linear return series with slope 2 and
intercept 3 is recovered exactly, with fit quality 1. -/
theorem regression_round_trip_witness :
    popVar [(1 : ℚ), -1] ≠ 0 ∧ (2 : ℚ) ≠ 0
    ∧ linregress [(1 : ℚ), -1] ([(1 : ℚ), -1].map (fun t => 3 + 2 * t))
        = .ok { slope := 2, intercept := 3, rsq := 1 } := by
  have h1 : popVar [(1 : ℚ), -1] ≠ 0 := by norm_num [popVar, popCov, popMean, dot]
  exact ⟨h1, by norm_num, regression_round_trip [(1 : ℚ), -1] 3 2 h1 (by norm_num)⟩

/-! ## Pipeline error propagation (C7) and determinism (C6) -/

theorem regressSecurity_error_only {f : FactorSeries} {s : Security} {e : PipelineError}
    (h : regressSecurity f s = .error e) : e = .degenerateSeries := by
  unfold regressSecurity at h
  cases hm : linregress f.mkt s.returns with
  | error em =>
      rw [hm] at h
      exact (Except.error.inj h) ▸ linregress_error_only hm
  | ok m =>
    cases hsm : linregress f.smb s.returns with
    | error es =>
        rw [hm, hsm] at h
        exact (Except.error.inj h) ▸ linregress_error_only hsm
    | ok sm =>
      cases hhm : linregress f.hml s.returns with
      | error eh =>
          rw [hm, hsm, hhm] at h
          exact (Except.error.inj h) ▸ linregress_error_only hhm
      | ok hm2 =>
          rw [hm, hsm, hhm] at h
          exact absurd h (by simp)

theorem regressSecurity_ok_nonzero {f : FactorSeries} {s : Security} {l : FactorLoading}
    (h : regressSecurity f s = .ok l) :
    popVar f.mkt ≠ 0 ∧ popVar f.smb ≠ 0 ∧ popVar f.hml ≠ 0 ∧ popVar s.returns ≠ 0 := by
  unfold regressSecurity at h
  cases hm : linregress f.mkt s.returns with
  | error em => rw [hm] at h; exact absurd h (by simp)
  | ok m =>
    cases hsm : linregress f.smb s.returns with
    | error es => rw [hm, hsm] at h; exact absurd h (by simp)
    | ok sm =>
      cases hhm : linregress f.hml s.returns with
      | error eh => rw [hm, hsm, hhm] at h; exact absurd h (by simp)
      | ok hm2 =>
          obtain ⟨h1, h2, _⟩ := linregress_ok hm
          obtain ⟨h3, _, _⟩ := linregress_ok hsm
          obtain ⟨h4, _, _⟩ := linregress_ok hhm
          exact ⟨h1, h3, h4, h2⟩

theorem regressUniverse_error_only {f : FactorSeries} {e : PipelineError} :
    ∀ u : List Security, regressUniverse f u = .error e → e = .degenerateSeries := by
  intro u
  induction u with
  | nil => intro h; exact absurd h (by simp [regressUniverse])
  | cons s rest ih =>
      intro h
      unfold regressUniverse at h
      cases hs : regressSecurity f s with
      | error es =>
          rw [hs] at h
          exact (Except.error.inj h) ▸ regressSecurity_error_only hs
      | ok l =>
        cases hr : regressUniverse f rest with
        | error er =>
            rw [hs, hr] at h
            exact ih ((Except.error.inj h) ▸ hr)
        | ok ls =>
            rw [hs, hr] at h
            exact absurd h (by simp)

theorem regressUniverse_ok_all {f : FactorSeries} :
    ∀ {u : List Security} {ls : List FactorLoading}, regressUniverse f u = .ok ls →
      ∀ s ∈ u, ∃ l, regressSecurity f s = .ok l := by
  intro u
  induction u with
  | nil => intro ls _ s hs; simp at hs
  | cons s0 rest ih =>
      intro ls h s hs
      unfold regressUniverse at h
      cases hs0 : regressSecurity f s0 with
      | error es => rw [hs0] at h; exact absurd h (by simp)
      | ok l =>
        cases hr : regressUniverse f rest with
        | error er => rw [hs0, hr] at h; exact absurd h (by simp)
        | ok ls2 =>
            rcases List.mem_cons.mp hs with rfl | hmem
            · exact ⟨l, hs0⟩
            · exact ih hr s hmem

/-- C7: any input with a zero-variance return series, or a zero-variance
factor series (for a nonempty universe), makes the pipeline terminate with
`DegenerateSeriesError`; the result is an `Except.error`, so no partial
basket output exists. -/
theorem pipeline_degenerate_terminal (f : FactorSeries) (u : List Security) (cfg : Config)
    (hne : u ≠ [])
    (hz : (∃ s ∈ u, popVar s.returns = 0)
      ∨ popVar f.mkt = 0 ∨ popVar f.smb = 0 ∨ popVar f.hml = 0) :
    pipeline f u cfg = .error .degenerateSeries := by
  cases hr : regressUniverse f u with
  | error e =>
      have he := regressUniverse_error_only u hr
      unfold pipeline assignBaskets
      rw [hr, he]
  | ok ls =>
      exfalso
      have hall := regressUniverse_ok_all hr
      rcases hz with ⟨s, hsu, hs0⟩ | hf
      · obtain ⟨l, hl⟩ := hall s hsu
        exact (regressSecurity_ok_nonzero hl).2.2.2 hs0
      · obtain ⟨s0, hs0u⟩ : ∃ s, s ∈ u := by
          cases u with
          | nil => exact absurd rfl hne
          | cons a t => exact ⟨a, List.mem_cons_self a t⟩
        obtain ⟨l, hl⟩ := hall s0 hs0u
        obtain ⟨h1, h2, h3, _⟩ := regressSecurity_ok_nonzero hl
        rcases hf with hf | hf | hf
        · exact h1 hf
        · exact h2 hf
        · exact h3 hf

/-- C7 witness: a one-security universe whose return series is constant zero
makes the pipeline fail with `DegenerateSeriesError`. -/
theorem pipeline_degenerate_terminal_witness :
    ([{ id := "Z", returns := [0, 0] }] : List Security) ≠ []
    ∧ (∃ s ∈ ([{ id := "Z", returns := [0, 0] }] : List Security), popVar s.returns = 0)
    ∧ pipeline { mkt := [1, -1], smb := [1, -1], hml := [1, -1] }
        [{ id := "Z", returns := [0, 0] }] defaultConfig = .error .degenerateSeries := by
  have hne : ([{ id := "Z", returns := [0, 0] }] : List Security) ≠ [] := by simp
  have hz : ∃ s ∈ ([{ id := "Z", returns := [0, 0] }] : List Security), popVar s.returns = 0 := by
    refine ⟨{ id := "Z", returns := [0, 0] }, by simp, ?_⟩
    norm_num [popVar, popCov, popMean, dot]
  exact ⟨hne, hz, pipeline_degenerate_terminal _ _ defaultConfig hne (Or.inl hz)⟩

/-- C6: the pipeline is deterministic: two runs on identical factor series,
identical universe and identical configuration produce identical basket
assignments and weights (in particular, risk-score ties are resolved by the
same identifier tie-break in both runs). -/
theorem pipeline_deterministic (f1 f2 : FactorSeries) (u1 u2 : List Security)
    (c1 c2 : Config) (hf : f1 = f2) (hu : u1 = u2) (hc : c1 = c2) :
    pipeline f1 u1 c1 = pipeline f2 u2 c2 := by
  rw [hf, hu, hc]

/-- C6 witness: two runs of the pipeline on one concrete identical input
coincide. -/
theorem pipeline_deterministic_witness :
    pipeline { mkt := [1, -1], smb := [1, -1], hml := [1, -1] }
      [{ id := "Z", returns := [0, 0] }] defaultConfig
    = pipeline { mkt := [1, -1], smb := [1, -1], hml := [1, -1] }
      [{ id := "Z", returns := [0, 0] }] defaultConfig :=
  pipeline_deterministic _ _ _ _ _ _ rfl rfl rfl

/-! ## RiskScorer theorem (C3) -/

/-- C3: on success, the risk scorer pairs every security's loadings with the
composite score `standardized(beta) + 0.5 * standardized(smbLoading) + 0.5 *
standardized(hmlLoading)`, where each field is standardized by subtracting
its cross-sectional population mean and dividing by the real square root of
its cross-sectional population variance over the full universe. -/
theorem riskScores_composite_formula (ls : List FactorLoading)
    (scored : List (FactorLoading × ℝ)) (h : riskScores ls = .ok scored) :
    scored = ls.map fun l =>
      (l, ((l.beta : ℝ) - ((popMean (ls.map FactorLoading.beta) : ℚ) : ℝ))
            / Real.sqrt ((popVar (ls.map FactorLoading.beta) : ℚ) : ℝ)
          + 1 / 2 * (((l.smbLoading : ℝ) - ((popMean (ls.map FactorLoading.smbLoading) : ℚ) : ℝ))
            / Real.sqrt ((popVar (ls.map FactorLoading.smbLoading) : ℚ) : ℝ))
          + 1 / 2 * (((l.hmlLoading : ℝ) - ((popMean (ls.map FactorLoading.hmlLoading) : ℚ) : ℝ))
            / Real.sqrt ((popVar (ls.map FactorLoading.hmlLoading) : ℚ) : ℝ))) := by
  unfold riskScores at h
  by_cases hv : popVar (ls.map FactorLoading.beta) = 0
    ∨ popVar (ls.map FactorLoading.smbLoading) = 0
    ∨ popVar (ls.map FactorLoading.hmlLoading) = 0
  · rw [if_pos hv] at h
    exact absurd h (by simp)
  · rw [if_neg hv] at h
    have := (Except.ok.inj h).symm
    rw [this]
    rfl

/-- C3 witness: a concrete two-security universe passes the zero-variance
guard and its scores are exactly the documented composite formula. -/
theorem riskScores_composite_formula_witness :
    riskScores
      [ { id := "A", beta := 1, smbLoading := 1, hmlLoading := 1, alpha := 0, rSquared := 1 }
      , { id := "B", beta := -1, smbLoading := -1, hmlLoading := -1, alpha := 0, rSquared := 1 } ]
      = .ok
        ([ { id := "A", beta := 1, smbLoading := 1, hmlLoading := 1, alpha := 0, rSquared := 1 }
         , { id := "B", beta := -1, smbLoading := -1, hmlLoading := -1, alpha := 0, rSquared := 1 } ].map
          fun l => (l, compositeScore l
            [ { id := "A", beta := 1, smbLoading := 1, hmlLoading := 1, alpha := 0, rSquared := 1 }
            , { id := "B", beta := -1, smbLoading := -1, hmlLoading := -1, alpha := 0, rSquared := 1 } ]))
    ∧ ([ { id := "A", beta := 1, smbLoading := 1, hmlLoading := 1, alpha := 0, rSquared := 1 }
       , { id := "B", beta := -1, smbLoading := -1, hmlLoading := -1, alpha := 0, rSquared := 1 } ].map
          fun l => (l, compositeScore l
            [ { id := "A", beta := 1, smbLoading := 1, hmlLoading := 1, alpha := 0, rSquared := 1 }
            , { id := "B", beta := -1, smbLoading := -1, hmlLoading := -1, alpha := 0, rSquared := 1 } ]))
        = [ { id := "A", beta := 1, smbLoading := 1, hmlLoading := 1, alpha := 0, rSquared := 1 }
          , { id := "B", beta := -1, smbLoading := -1, hmlLoading := -1, alpha := 0, rSquared := 1 } ].map
          (fun l =>
            (l, ((l.beta : ℝ) - ((popMean ([ { id := "A", beta := 1, smbLoading := 1, hmlLoading := 1, alpha := 0, rSquared := 1 }
              , { id := "B", beta := -1, smbLoading := -1, hmlLoading := -1, alpha := 0, rSquared := 1 } ].map FactorLoading.beta) : ℚ) : ℝ))
                / Real.sqrt ((popVar ([ { id := "A", beta := 1, smbLoading := 1, hmlLoading := 1, alpha := 0, rSquared := 1 }
              , { id := "B", beta := -1, smbLoading := -1, hmlLoading := -1, alpha := 0, rSquared := 1 } ].map FactorLoading.beta) : ℚ) : ℝ)
              + 1 / 2 * (((l.smbLoading : ℝ) - ((popMean ([ { id := "A", beta := 1, smbLoading := 1, hmlLoading := 1, alpha := 0, rSquared := 1 }
              , { id := "B", beta := -1, smbLoading := -1, hmlLoading := -1, alpha := 0, rSquared := 1 } ].map FactorLoading.smbLoading) : ℚ) : ℝ))
                / Real.sqrt ((popVar ([ { id := "A", beta := 1, smbLoading := 1, hmlLoading := 1, alpha := 0, rSquared := 1 }
              , { id := "B", beta := -1, smbLoading := -1, hmlLoading := -1, alpha := 0, rSquared := 1 } ].map FactorLoading.smbLoading) : ℚ) : ℝ))
              + 1 / 2 * (((l.hmlLoading : ℝ) - ((popMean ([ { id := "A", beta := 1, smbLoading := 1, hmlLoading := 1, alpha := 0, rSquared := 1 }
              , { id := "B", beta := -1, smbLoading := -1, hmlLoading := -1, alpha := 0, rSquared := 1 } ].map FactorLoading.hmlLoading) : ℚ) : ℝ))
                / Real.sqrt ((popVar ([ { id := "A", beta := 1, smbLoading := 1, hmlLoading := 1, alpha := 0, rSquared := 1 }
              , { id := "B", beta := -1, smbLoading := -1, hmlLoading := -1, alpha := 0, rSquared := 1 } ].map FactorLoading.hmlLoading) : ℚ) : ℝ)))) := by
  have h : riskScores
      [ { id := "A", beta := 1, smbLoading := 1, hmlLoading := 1, alpha := 0, rSquared := 1 }
      , { id := "B", beta := -1, smbLoading := -1, hmlLoading := -1, alpha := 0, rSquared := 1 } ]
      = .ok
        ([ { id := "A", beta := 1, smbLoading := 1, hmlLoading := 1, alpha := 0, rSquared := 1 }
         , { id := "B", beta := -1, smbLoading := -1, hmlLoading := -1, alpha := 0, rSquared := 1 } ].map
          fun l => (l, compositeScore l
            [ { id := "A", beta := 1, smbLoading := 1, hmlLoading := 1, alpha := 0, rSquared := 1 }
            , { id := "B", beta := -1, smbLoading := -1, hmlLoading := -1, alpha := 0, rSquared := 1 } ])) := by
    unfold riskScores
    rw [if_neg (by norm_num [popVar, popCov, popMean, dot])]
  exact ⟨h, riskScores_composite_formula _ _ h⟩

/-! ## Landing-page modal theorem (C10) -/

/-- C10: the features list is the static four-element list; for every feature
in it, a Learn More click sets the selected feature to exactly that feature,
opens the modal, and the modal then displays that feature's title,
description and details; a backdrop click closes the modal; a click inside
the modal content leaves the state unchanged (propagation stopped), so the
modal stays open. -/
theorem homepage_modal_behavior (s : UIState) (f : Feature) (hf : f ∈ features) :
    features.length = 4
    ∧ uiStep s (.learnMore f) = { selectedFeature := some f, showModal := true }
    ∧ renderedModal (uiStep s (.learnMore f)) = some (f.title, f.description, f.details)
    ∧ (uiStep s .backdropClick).showModal = false
    ∧ renderedModal (uiStep s .backdropClick) = none
    ∧ uiStep s .modalContentClick = s := by
  refine ⟨rfl, rfl, rfl, rfl, ?_, rfl⟩
  simp [renderedModal, uiStep]

/-- C10 witness: the Learn More, backdrop and content-click behavior at the
first feature of the list, starting from the initial state. -/
theorem homepage_modal_behavior_witness :
    (features.getD 0 { title := "", description := "", details := "" }) ∈ features
    ∧ (features.length = 4
      ∧ uiStep initialUIState (.learnMore (features.getD 0 { title := "", description := "", details := "" }))
          = { selectedFeature := some (features.getD 0 { title := "", description := "", details := "" })
            , showModal := true }
      ∧ renderedModal (uiStep initialUIState (.learnMore (features.getD 0 { title := "", description := "", details := "" })))
          = some ((features.getD 0 { title := "", description := "", details := "" }).title
            , (features.getD 0 { title := "", description := "", details := "" }).description
            , (features.getD 0 { title := "", description := "", details := "" }).details)
      ∧ (uiStep initialUIState .backdropClick).showModal = false
      ∧ renderedModal (uiStep initialUIState .backdropClick) = none
      ∧ uiStep initialUIState .modalContentClick = initialUIState) := by
  have hf : (features.getD 0 { title := "", description := "", details := "" }) ∈ features := by
    simp [features]
  exact ⟨hf, homepage_modal_behavior initialUIState _ hf⟩

/-! ## Sorted-prefix facts used by the placement scenario (C9) -/

theorem all_P_take_countP {α : Type} (R : α → α → Prop) (P : α → Bool) :
    ∀ l : List α, List.Pairwise R l →
      (∀ x ∈ l, ∀ y ∈ l, R x y → P y = true → P x = true) →
      ∀ x ∈ l.take (l.countP P), P x = true := by
  intro l
  induction l with
  | nil => intro _ _ x hx; simp at hx
  | cons a t ih =>
      intro hp hdc x hx
      obtain ⟨hhead, htail⟩ := List.pairwise_cons.mp hp
      by_cases ha : P a = true
      · rw [List.countP_cons_of_pos P t ha, List.take_succ_cons] at hx
        rcases List.mem_cons.mp hx with rfl | hx
        · exact ha
        · refine ih htail ?_ x hx
          intro x1 hx1 y1 hy1 hr hy
          exact hdc x1 (List.mem_cons_of_mem a hx1) y1 (List.mem_cons_of_mem a hy1) hr hy
      · have h0 : t.countP P = 0 := by
          rw [List.countP_eq_zero]
          intro y hy hPy
          exact ha (hdc a (List.mem_cons_self a t) y (List.mem_cons_of_mem a hy) (hhead y hy) hPy)
        rw [List.countP_cons_of_neg P t ha, h0] at hx
        simp at hx

theorem all_not_P_drop_countP {α : Type} (P : α → Bool) (l : List α)
    (htake : ∀ x ∈ l.take (l.countP P), P x = true) :
    ∀ x ∈ l.drop (l.countP P), P x = false := by
  have hc : l.countP P ≤ l.length := List.countP_le_length P
  have hsplit : l.countP P
      = (l.take (l.countP P)).countP P + (l.drop (l.countP P)).countP P := by
    conv_lhs => rw [← List.take_append_drop (l.countP P) l]
    rw [List.countP_append]
  have htakefull : (l.take (l.countP P)).countP P = l.countP P := by
    rw [List.countP_eq_length.mpr htake, List.length_take]
    omega
  have hdrop0 : (l.drop (l.countP P)).countP P = 0 := by omega
  intro x hx
  have := List.countP_eq_zero.mp hdrop0 x hx
  rwa [Bool.not_eq_true] at this

theorem map_chunkBySizes {α γ : Type} (g : α → γ) :
    ∀ (ks : List ℕ) (l : List α),
      (chunkBySizes ks l).map (List.map g) = chunkBySizes ks (l.map g) := by
  intro ks
  induction ks with
  | nil => intro l; rfl
  | cons k ks ih =>
      intro l
      simp only [chunkBySizes, List.map_cons, List.map_take, List.map_drop, ih]

theorem standardize_neg_of {x : ℚ} {xs : List ℚ} (hv : 0 < popVar xs) (hx : x < popMean xs) :
    standardize x xs < 0 := by
  apply div_neg_of_neg_of_pos
  · have : (x : ℝ) < ((popMean xs : ℚ) : ℝ) := by exact_mod_cast hx
    linarith
  · apply Real.sqrt_pos.mpr
    exact_mod_cast hv

theorem standardize_pos_of {x : ℚ} {xs : List ℚ} (hv : 0 < popVar xs) (hx : popMean xs < x) :
    0 < standardize x xs := by
  apply div_pos
  · have : ((popMean xs : ℚ) : ℝ) < (x : ℝ) := by exact_mod_cast hx
    linarith
  · apply Real.sqrt_pos.mpr
    exact_mod_cast hv

/-! ## The ten-security placement scenario (C9) -/

/-- The scenario's exogenous factor series: the size and value series are
positive multiples of the market series, so every loading of a security with
returns `±market` is `±` a fixed positive constant. -/
def scenFactors : FactorSeries := { mkt := [1, -1], smb := [2, -2], hml := [3, -3] }

/-- The scenario universe: six securities whose returns equal the negated
market factor and four whose returns equal the market factor, interleaved. -/
def scenUniverse : List Security :=
  [ { id := "N0", returns := [-1, 1] }
  , { id := "P0", returns := [1, -1] }
  , { id := "N1", returns := [-1, 1] }
  , { id := "P1", returns := [1, -1] }
  , { id := "N2", returns := [-1, 1] }
  , { id := "P2", returns := [1, -1] }
  , { id := "N3", returns := [-1, 1] }
  , { id := "P3", returns := [1, -1] }
  , { id := "N4", returns := [-1, 1] }
  , { id := "N5", returns := [-1, 1] } ]

/-- Loadings of a scenario security with returns equal to the negated market
factor. -/
def negLoad (i : String) : FactorLoading :=
  { id := i, beta := -1, smbLoading := -(1 / 2), hmlLoading := -(1 / 3), alpha := 0, rSquared := 1 }

/-- Loadings of a scenario security with returns equal to the market
factor. -/
def posLoad (i : String) : FactorLoading :=
  { id := i, beta := 1, smbLoading := 1 / 2, hmlLoading := 1 / 3, alpha := 0, rSquared := 1 }

/-- The loadings the regression engine computes for the scenario universe. -/
def scenLoadings : List FactorLoading :=
  [ negLoad "N0", posLoad "P0", negLoad "N1", posLoad "P1", negLoad "N2"
  , posLoad "P2", negLoad "N3", posLoad "P3", negLoad "N4", negLoad "N5" ]

theorem scen_linregress_mkt_neg :
    linregress scenFactors.mkt [-1, 1] = .ok { slope := -1, intercept := 0, rsq := 1 } := by
  norm_num [scenFactors, linregress, popVar, popCov, popMean, dot]

theorem scen_linregress_smb_neg :
    linregress scenFactors.smb [-1, 1] = .ok { slope := -(1 / 2), intercept := 0, rsq := 1 } := by
  norm_num [scenFactors, linregress, popVar, popCov, popMean, dot]

theorem scen_linregress_hml_neg :
    linregress scenFactors.hml [-1, 1] = .ok { slope := -(1 / 3), intercept := 0, rsq := 1 } := by
  norm_num [scenFactors, linregress, popVar, popCov, popMean, dot]

theorem scen_linregress_mkt_pos :
    linregress scenFactors.mkt [1, -1] = .ok { slope := 1, intercept := 0, rsq := 1 } := by
  norm_num [scenFactors, linregress, popVar, popCov, popMean, dot]

theorem scen_linregress_smb_pos :
    linregress scenFactors.smb [1, -1] = .ok { slope := 1 / 2, intercept := 0, rsq := 1 } := by
  norm_num [scenFactors, linregress, popVar, popCov, popMean, dot]

theorem scen_linregress_hml_pos :
    linregress scenFactors.hml [1, -1] = .ok { slope := 1 / 3, intercept := 0, rsq := 1 } := by
  norm_num [scenFactors, linregress, popVar, popCov, popMean, dot]

theorem scen_regressSecurity_neg (i : String) :
    regressSecurity scenFactors { id := i, returns := [-1, 1] } = .ok (negLoad i) := by
  unfold regressSecurity
  rw [scen_linregress_mkt_neg, scen_linregress_smb_neg, scen_linregress_hml_neg]
  rfl

theorem scen_regressSecurity_pos (i : String) :
    regressSecurity scenFactors { id := i, returns := [1, -1] } = .ok (posLoad i) := by
  unfold regressSecurity
  rw [scen_linregress_mkt_pos, scen_linregress_smb_pos, scen_linregress_hml_pos]
  rfl

theorem scen_regress : regressUniverse scenFactors scenUniverse = .ok scenLoadings := by
  simp only [scenUniverse, scenLoadings, regressUniverse,
    scen_regressSecurity_neg, scen_regressSecurity_pos]

theorem scen_beta_map :
    scenLoadings.map FactorLoading.beta = [-1, 1, -1, 1, -1, 1, -1, 1, -1, -1] := by
  simp [scenLoadings, negLoad, posLoad]

theorem scen_smb_map :
    scenLoadings.map FactorLoading.smbLoading
      = [-(1 / 2), 1 / 2, -(1 / 2), 1 / 2, -(1 / 2), 1 / 2, -(1 / 2), 1 / 2, -(1 / 2), -(1 / 2)] := by
  simp [scenLoadings, negLoad, posLoad]

theorem scen_hml_map :
    scenLoadings.map FactorLoading.hmlLoading
      = [-(1 / 3), 1 / 3, -(1 / 3), 1 / 3, -(1 / 3), 1 / 3, -(1 / 3), 1 / 3, -(1 / 3), -(1 / 3)] := by
  simp [scenLoadings, negLoad, posLoad]

theorem scenScore_neg (i : String) : compositeScore (negLoad i) scenLoadings < 0 := by
  have h1 : standardize (-1 : ℚ) (scenLoadings.map FactorLoading.beta) < 0 :=
    standardize_neg_of
      (by rw [scen_beta_map]; norm_num [popVar, popCov, popMean, dot])
      (by rw [scen_beta_map]; norm_num [popMean])
  have h2 : standardize (-(1 / 2) : ℚ) (scenLoadings.map FactorLoading.smbLoading) < 0 :=
    standardize_neg_of
      (by rw [scen_smb_map]; norm_num [popVar, popCov, popMean, dot])
      (by rw [scen_smb_map]; norm_num [popMean])
  have h3 : standardize (-(1 / 3) : ℚ) (scenLoadings.map FactorLoading.hmlLoading) < 0 :=
    standardize_neg_of
      (by rw [scen_hml_map]; norm_num [popVar, popCov, popMean, dot])
      (by rw [scen_hml_map]; norm_num [popMean])
  unfold compositeScore
  simp only [negLoad]
  linarith

theorem scenScore_pos (i : String) : 0 < compositeScore (posLoad i) scenLoadings := by
  have h1 : 0 < standardize (1 : ℚ) (scenLoadings.map FactorLoading.beta) :=
    standardize_pos_of
      (by rw [scen_beta_map]; norm_num [popVar, popCov, popMean, dot])
      (by rw [scen_beta_map]; norm_num [popMean])
  have h2 : 0 < standardize (1 / 2 : ℚ) (scenLoadings.map FactorLoading.smbLoading) :=
    standardize_pos_of
      (by rw [scen_smb_map]; norm_num [popVar, popCov, popMean, dot])
      (by rw [scen_smb_map]; norm_num [popMean])
  have h3 : 0 < standardize (1 / 3 : ℚ) (scenLoadings.map FactorLoading.hmlLoading) :=
    standardize_pos_of
      (by rw [scen_hml_map]; norm_num [popVar, popCov, popMean, dot])
      (by rw [scen_hml_map]; norm_num [popMean])
  unfold compositeScore
  simp only [posLoad]
  linarith

/-- The scored scenario universe (loadings paired with composite scores). -/
noncomputable def scenScored : List (FactorLoading × ℝ) :=
  scenLoadings.map fun l => (l, compositeScore l scenLoadings)

/-- The scenario universe sorted ascending by score with identifier
tie-break, as the partitioner sorts it. -/
noncomputable def scenSorted : List (FactorLoading × ℝ) :=
  scenScored.mergeSort (lexLE Prod.snd (fun x => x.1.id))

theorem scen_riskScores : riskScores scenLoadings = .ok scenScored := by
  unfold riskScores scenScored
  rw [if_neg]
  rw [scen_beta_map, scen_smb_map, scen_hml_map]
  norm_num [popVar, popCov, popMean, dot]

theorem scenSorted_def :
    scenScored.mergeSort (lexLE Prod.snd (fun x => x.1.id)) = scenSorted := rfl

theorem scenSorted_perm : scenSorted.Perm scenScored :=
  List.mergeSort_perm scenScored (lexLE Prod.snd (fun x => x.1.id))

theorem scenSorted_pairwise :
    List.Pairwise (fun a b => lexLE Prod.snd (fun x : FactorLoading × ℝ => x.1.id) a b = true)
      scenSorted :=
  List.sorted_mergeSort (lexLE_trans Prod.snd (fun x : FactorLoading × ℝ => x.1.id))
    (lexLE_total Prod.snd (fun x : FactorLoading × ℝ => x.1.id)) scenScored

theorem scenSorted_length : scenSorted.length = 10 := by
  unfold scenSorted
  rw [List.length_mergeSort]
  simp [scenScored, scenLoadings]

theorem scen_scored_cases :
    ∀ x ∈ scenScored, (x.1.beta = -1 ∧ x.2 < 0) ∨ (x.1.beta = 1 ∧ 0 < x.2) := by
  intro x hx
  unfold scenScored at hx
  obtain ⟨l, hl, rfl⟩ := List.mem_map.mp hx
  simp only [scenLoadings, List.mem_cons, List.not_mem_nil, or_false] at hl
  rcases hl with rfl | rfl | rfl | rfl | rfl | rfl | rfl | rfl | rfl | rfl <;>
    first
      | exact Or.inl ⟨rfl, scenScore_neg _⟩
      | exact Or.inr ⟨rfl, scenScore_pos _⟩

theorem scen_countP :
    scenSorted.countP (fun x => decide (x.1.beta = -1)) = 6 := by
  rw [scenSorted_perm.countP_eq]
  unfold scenScored
  rw [List.countP_map]
  norm_num [scenLoadings, negLoad, posLoad, List.countP_cons, Function.comp]

theorem scen_take_neg : ∀ x ∈ scenSorted.take 6, x.1.beta = -1 := by
  have hdc : ∀ x ∈ scenSorted, ∀ y ∈ scenSorted,
      lexLE Prod.snd (fun x : FactorLoading × ℝ => x.1.id) x y = true →
      decide (y.1.beta = -1) = true → decide (x.1.beta = -1) = true := by
    intro x hx y hy hle hPy
    rw [decide_eq_true_eq] at hPy ⊢
    have hxs : x ∈ scenScored := scenSorted_perm.mem_iff.mp hx
    have hys : y ∈ scenScored := scenSorted_perm.mem_iff.mp hy
    have hkey : x.2 ≤ y.2 := lexLE_key_le Prod.snd (fun x => x.1.id) hle
    have hy2 : y.2 < 0 := by
      rcases scen_scored_cases y hys with ⟨_, h⟩ | ⟨hb, _⟩
      · exact h
      · rw [hPy] at hb
        norm_num at hb
    rcases scen_scored_cases x hxs with ⟨hb, _⟩ | ⟨_, h⟩
    · exact hb
    · linarith
  have := all_P_take_countP _ (fun x : FactorLoading × ℝ => decide (x.1.beta = -1))
    scenSorted scenSorted_pairwise hdc
  rw [scen_countP] at this
  intro x hx
  have := this x hx
  rwa [decide_eq_true_eq] at this

theorem scen_drop_pos : ∀ x ∈ scenSorted.drop 6, x.1.beta = 1 := by
  have htake : ∀ x ∈ scenSorted.take (scenSorted.countP (fun x => decide (x.1.beta = -1))),
      decide (x.1.beta = -1) = true := by
    rw [scen_countP]
    intro x hx
    rw [decide_eq_true_eq]
    exact scen_take_neg x hx
  have hdrop := all_not_P_drop_countP (fun x : FactorLoading × ℝ => decide (x.1.beta = -1))
    scenSorted htake
  rw [scen_countP] at hdrop
  intro x hx
  have hfalse := hdrop x hx
  simp only [decide_eq_false_iff_not] at hfalse
  have hxs : x ∈ scenScored := scenSorted_perm.mem_iff.mp (List.drop_subset 6 scenSorted hx)
  rcases scen_scored_cases x hxs with ⟨hb, _⟩ | ⟨hb, _⟩
  · exact absurd hb hfalse
  · exact hb

theorem scen_sorted_beta_map :
    scenSorted.map (fun x => x.1.beta) = List.replicate 6 (-1) ++ List.replicate 4 1 := by
  conv_lhs => rw [← List.take_append_drop 6 scenSorted, List.map_append]
  have h1 : (scenSorted.take 6).map (fun x => x.1.beta) = List.replicate 6 (-1 : ℚ) := by
    rw [List.eq_replicate_iff]
    constructor
    · rw [List.length_map, List.length_take, scenSorted_length]
      omega
    · intro b hb
      obtain ⟨x, hx, rfl⟩ := List.mem_map.mp hb
      exact scen_take_neg x hx
  have h2 : (scenSorted.drop 6).map (fun x => x.1.beta) = List.replicate 4 (1 : ℚ) := by
    rw [List.eq_replicate_iff]
    constructor
    · rw [List.length_map, List.length_drop, scenSorted_length]
    · intro b hb
      obtain ⟨x, hx, rfl⟩ := List.mem_map.mp hb
      exact scen_drop_pos x hx
  rw [h1, h2]

/-- C9: in the ten-security scenario (six securities whose returns equal the
negated market factor, so beta is -1, and four whose returns equal the
market factor, so beta is 1), the risk scoring and basket assignment stage
succeeds and places the six beta -1 securities in baskets 1-3 (the
lowest-numbered baskets) and the four beta 1 securities in baskets 4-5 (the
highest-numbered ones). -/
theorem scenario_beta_placement :
    ∃ bs : List (List (FactorLoading × ℝ)),
      assignBaskets scenFactors scenUniverse 5 = .ok bs
      ∧ bs.map (List.map fun x => x.1.beta)
          = [[-1, -1], [-1, -1], [-1, -1], [1, 1], [1, 1]] := by
  refine ⟨basketPartition 5 Prod.snd (fun x => x.1.id) scenScored, ?_, ?_⟩
  · unfold assignBaskets
    rw [scen_regress]
    simp only [scen_riskScores]
  · unfold basketPartition
    have hlen10 : scenScored.length = 10 := by simp [scenScored, scenLoadings]
    rw [hlen10]
    have hsizes : basketSizes 5 10 = [2, 2, 2, 2, 2] := by decide
    rw [hsizes, map_chunkBySizes, scenSorted_def, scen_sorted_beta_map]
    rfl

end OptiVest
